import Mathlib

/-!
Verification of the translate-tools repository.

This file shallowly embeds the core operations of the repository in Lean 4:

* the text segmenter `split_into_parts` / `_join_up_to_length`
  (src/ext_api/helpers.py, duplicated in src/ext_api/translate.py);
* the sequence iterator and validator `iterate_translate_sequence` /
  `identify_invalid_sequence` and the chained translator `translate_sequenced`
  (src/ext_api/translate.py);
* the parallel orchestrator `parallel_sequenced_translate`
  (src/ext_api/parallel.py);
* the language helpers `get_lang_from_code` / `ensure_language` / `ensure_code`
  (src/ext_api/helpers.py);
* the random sequence planner `get_random_sequence`, whose body is missing from
  src (the function there raises NotImplementedError and its callers pass
  keyword arguments the src signature lacks), modelled from the spec.

Python strings are modelled as `List Char`; machine integers as `Nat`/`Int`;
fallible code returns `Option`/`Except`.  The main segmentation loop, a Python
`while` over a worklist, is modelled with explicit fuel (the source loop does
not terminate for `target_length = 0`, so it is not total); the fuel chosen in
`split_into_parts` is generous enough for every terminating run.
-/

/-! ## Text segmenter (src/ext_api/helpers.py) -/

/-- Line-break characters recognised by Python `str.splitlines`. -/
def isLineBreak (c : Char) : Bool :=
  c = '\n' || c = '\r' || c = '\x0b' || c = '\x0c' ||
  c = '\x1c' || c = '\x1d' || c = '\x1e' || c = '\x85' ||
  c = '\u2028' || c = '\u2029'

/-- Worker for `splitlinesKeepends`; `cur` holds the current line reversed. -/
def splitlinesAux : List Char → List Char → List (List Char)
  | [], cur => if cur = [] then [] else [cur.reverse]
  | '\r' :: '\n' :: rest, cur => (cur.reverse ++ ['\r', '\n']) :: splitlinesAux rest []
  | c :: rest, cur =>
    if isLineBreak c then (cur.reverse ++ [c]) :: splitlinesAux rest []
    else splitlinesAux rest (c :: cur)

/-- Model of Python `text.splitlines(keepends=True)`: split into lines, each
keeping its terminating line break. -/
def splitlinesKeepends (text : List Char) : List (List Char) :=
  splitlinesAux text []

/-- Worker for `join_up_to_length`, modelling the `while` loop of
`_join_up_to_length`: `result` and `usedJoinChar` are the loop variables. -/
def joinUpToLengthAux (joinChar : List Char) (n : Nat) :
    List (List Char) → List Char → List Char → List Char × List (List Char)
  | [], result, _ => (result, [])
  | s :: rest, result, usedJoinChar =>
    if result.length + usedJoinChar.length + s.length ≤ n then
      joinUpToLengthAux joinChar n rest (result ++ usedJoinChar ++ s) joinChar
    else
      (result, s :: rest)

/-- Model of `_join_up_to_length(segments, join_char, length)` from
src/ext_api/helpers.py: greedily joins leading segments (separated by
`joinChar`) while the joined length stays within `n`; returns the joined
string and the unconsumed segments. -/
def join_up_to_length (segments : List (List Char)) (joinChar : List Char)
    (n : Nat) : List Char × List (List Char) :=
  joinUpToLengthAux joinChar n segments [] []

/-- Model of the `while parsable_lines` loop of `split_into_parts`.  The Python
list `paragraphs` (always nonempty, mutated at its last entry) is carried as
`done ++ [cur]` with `cur` the last open paragraph; `lines` is the remaining
worklist `parsable_lines`.  `fuel` bounds the number of iterations; `none`
means the fuel ran out (the source loop diverges for `target_length = 0`). -/
def splitLoop (targetLength : Nat) :
    Nat → List (List Char) → List Char → List (List Char) →
    Option (List (List Char))
  | 0, _, _, _ => none
  | _ + 1, [], cur, done => some (done ++ [cur])
  | fuel + 1, line :: rest, cur, done =>
    if line.length + cur.length ≤ targetLength then
      splitLoop targetLength fuel rest (cur ++ line) done
    else if line.length ≤ targetLength then
      splitLoop targetLength fuel rest line (done ++ [cur])
    else
      let jr := join_up_to_length (line.splitOn ' ') [' '] targetLength
      if jr.1.length = 0 then
        splitLoop targetLength fuel (line.drop targetLength :: rest)
          (line.take targetLength) (done ++ [cur])
      else
        splitLoop targetLength fuel (List.intercalate [' '] jr.2 :: rest)
          jr.1 (done ++ [cur])

/-- Model of `split_into_parts(text, target_length)` from
src/ext_api/helpers.py.  Starts from `paragraphs = [""]` and the
keepends-splitlines of `text`; the fuel `3 * text.length + 3` dominates the
loop's iteration count for every terminating run (each iteration strictly
shrinks twice the total worklist length plus the worklist size when
`targetLength ≥ 1`). -/
def split_into_parts (text : List Char) (targetLength : Nat) :
    Option (List (List Char)) :=
  splitLoop targetLength (3 * text.length + 3) (splitlinesKeepends text) [] []

/-! ## Claims C1 and C2: segmentation exactness and segment bound -/

/-- Claim C1 (code bug): on input `"ab cd"` with target length 2 the segmenter
returns `["", "ab", "cd"]`, whose concatenation `"abcd"` is not the original
text: the single space separating the consumed tokens from the requeued
remainder of an over-long line is dropped.  This contradicts the spec's
exactness invariant (segmentation never discards characters). -/
theorem split_into_parts_drops_a_space :
    split_into_parts ("ab cd".toList) 2 = some [[], ['a', 'b'], ['c', 'd']] ∧
    List.flatten [([] : List Char), ['a', 'b'], ['c', 'd']] ≠ "ab cd".toList := by
  refine ⟨rfl, ?_⟩
  decide

theorem joinUpToLengthAux_length_le (joinChar : List Char) (n : Nat) :
    ∀ (segments : List (List Char)) (result usedJoinChar : List Char),
      result.length ≤ n →
      (joinUpToLengthAux joinChar n segments result usedJoinChar).1.length ≤ n := by
  intro segments
  induction segments with
  | nil => intro result u h; simpa [joinUpToLengthAux] using h
  | cons s rest ih =>
    intro result u h
    by_cases hc : result.length + u.length + s.length ≤ n
    · rw [joinUpToLengthAux, if_pos hc]
      exact ih _ _ (by simp only [List.length_append]; omega)
    · rw [joinUpToLengthAux, if_neg hc]
      exact h

theorem splitLoop_bound (t : Nat) :
    ∀ (fuel : Nat) (lines : List (List Char)) (cur : List Char)
      (done segs : List (List Char)),
      (∀ p ∈ done, p.length ≤ t) → cur.length ≤ t →
      splitLoop t fuel lines cur done = some segs →
      ∀ p ∈ segs, p.length ≤ t := by
  intro fuel
  induction fuel with
  | zero => intro lines cur done segs _ _ h; simp [splitLoop] at h
  | succ fuel ih =>
    intro lines cur done segs hdone hcur h
    match lines with
    | [] =>
      rw [splitLoop] at h
      obtain rfl : done ++ [cur] = segs := by simpa using h
      intro p hp
      rcases List.mem_append.mp hp with hp | hp
      · exact hdone p hp
      · simpa using (List.mem_singleton.mp hp) ▸ hcur
    | line :: rest =>
      rw [splitLoop] at h
      by_cases h1 : line.length + cur.length ≤ t
      · rw [if_pos h1] at h
        exact ih rest (cur ++ line) done segs hdone (by simp; omega) h
      · rw [if_neg h1] at h
        have hdone' : ∀ p ∈ done ++ [cur], p.length ≤ t := by
          intro p hp
          rcases List.mem_append.mp hp with hp | hp
          · exact hdone p hp
          · simpa using (List.mem_singleton.mp hp) ▸ hcur
        by_cases h2 : line.length ≤ t
        · rw [if_pos h2] at h
          exact ih rest line (done ++ [cur]) segs hdone' h2 h
        · rw [if_neg h2] at h
          by_cases h3 :
              (join_up_to_length (line.splitOn ' ') [' '] t).1.length = 0
          · rw [if_pos h3] at h
            refine ih _ _ _ segs hdone' ?_ h
            simp [List.length_take]
          · rw [if_neg h3] at h
            refine ih _ _ _ segs hdone' ?_ h
            exact joinUpToLengthAux_length_le [' '] t _ [] []
              (by simp)

/-- Claim C2: every segment produced by `split_into_parts` has length at most
`targetLength`, and in the forced-cut case (the greedy token join produced
nothing because a single whitespace-delimited token already exceeds the
target) the cut slice `line[:target_length]` has length exactly
`targetLength`. -/
theorem split_into_parts_segment_bound :
    (∀ (text : List Char) (t : Nat) (segs : List (List Char)), 1 ≤ t →
        split_into_parts text t = some segs → ∀ p ∈ segs, p.length ≤ t) ∧
    (∀ (line : List Char) (t : Nat), t < line.length →
        (join_up_to_length (line.splitOn ' ') [' '] t).1.length = 0 →
        (line.take t).length = t) := by
  constructor
  · intro text t segs _ h
    exact splitLoop_bound t _ _ _ _ segs (by simp) (by simp) h
  · intro line t hlt _
    simp [List.length_take]
    omega

/-- Concrete instantiation of `split_into_parts_segment_bound`: the segments of
`"ab cd"` at target length 2 are all of length at most 2, and the forced cut
of `"aaa"` at target length 1 has length exactly 1. -/
theorem split_into_parts_segment_bound_witness :
    (∀ p ∈ [([] : List Char), ['a', 'b'], ['c', 'd']], p.length ≤ 2) ∧
    ("aaa".toList.take 1).length = 1 := by
  refine ⟨split_into_parts_segment_bound.1 ("ab cd".toList) 2 _ (by decide) rfl, ?_⟩
  exact split_into_parts_segment_bound.2 ("aaa".toList) 1 (by decide) (by decide)

/-! ## Sequence iteration and validation (src/ext_api/translate.py)

The argostranslate capability graph is external: `Language.get_translation`
returns a translation object or `None`, and `ITranslation.translate` may
raise.  It is modelled by a parameter `G : Lang → Lang → Option T`; for the
executing functions `T` is `Q → Except Err Q` (a capability that either
produces a translated text or fails with an opaque engine error). -/

universe u v w

variable {Lang : Type u} {Q : Type v} {Err : Type w} {T : Type v}

/-- Model of `iterate_translate_sequence(sequence)`: the generator over
`zip(sequence[:-1], sequence[1:])` yielding, for each consecutive pair, the
capability looked up in the graph (possibly `none`) together with the
`(from, to)` pair itself. -/
def iterate_translate_sequence (G : Lang → Lang → Option T)
    (sequence : List Lang) : List (Option T × (Lang × Lang)) :=
  (sequence.dropLast.zip sequence.tail).map fun p => (G p.1 p.2, p)

/-- Worker for `identify_invalid_sequence`, modelling its
`for i, (translation, langs) in enumerate(...)` loop: returns the index
(counted from `i0`) and pair of the first entry whose capability is `none`. -/
def findNoneIdx : Nat → List (Option T × (Lang × Lang)) →
    Option (Nat × (Lang × Lang))
  | _, [] => none
  | i0, (tr, langs) :: rest =>
    match tr with
    | none => some (i0, langs)
    | some _ => findNoneIdx (i0 + 1) rest

/-- Model of `identify_invalid_sequence(sequence)` from
src/ext_api/translate.py: the first invalid translation of the sequence and
its position, or `none` when every pair resolves. -/
def identify_invalid_sequence (G : Lang → Lang → Option T)
    (sequence : List Lang) : Option (Nat × (Lang × Lang)) :=
  findNoneIdx 0 (iterate_translate_sequence G sequence)

/-- Errors raised by a sequenced translation, modelling the classes
`TranslationFailedError` (carrying `from_lang`, `to_lang` and the query at the
time of failure, with the underlying engine error as cause) and its subclass
`InvalidTranslationError` (same attributes, raised when the capability is
absent) from src/ext_api/translate.py. -/
inductive TranslationError (Lang : Type u) (Q : Type v) (Err : Type w) where
  | invalidTranslation (from_lang to_lang : Lang) (query : Q)
  | translationFailed (from_lang to_lang : Lang) (query : Q) (cause : Err)
deriving DecidableEq

/-- Worker for `translate_sequenced`, modelling its `for translation, langs in
iterate_translate_sequence(sequence)` loop over the yielded entries with the
running query as loop state. -/
def translateSeqGo : Q → List (Option (Q → Except Err Q) × (Lang × Lang)) →
    Except (TranslationError Lang Q Err) Q
  | query, [] => .ok query
  | query, (tr, langs) :: rest =>
    match tr with
    | none => .error (.invalidTranslation langs.1 langs.2 query)
    | some capability =>
      match capability query with
      | .error e => .error (.translationFailed langs.1 langs.2 query e)
      | .ok query2 => translateSeqGo query2 rest

/-- Model of `translate_sequenced(query, sequence)` from
src/ext_api/translate.py: chains the query through every edge of the sequence,
raising `InvalidTranslationError` on an absent capability and
`TranslationFailedError` on a failing invocation. -/
def translate_sequenced (G : Lang → Lang → Option (Q → Except Err Q))
    (query : Q) (sequence : List Lang) :
    Except (TranslationError Lang Q Err) Q :=
  translateSeqGo query (iterate_translate_sequence G sequence)

/-- Chaining every edge's translation over a query, following the spec's
wording for the success path of a task: `none` as soon as an edge has no
capability or an invocation fails.  Used to state what `translate_sequenced`
returns and which text reaches a given edge. -/
def applyEdges (G : Lang → Lang → Option (Q → Except Err Q)) :
    Q → List (Lang × Lang) → Option Q
  | q, [] => some q
  | q, (a, b) :: rest =>
    match G a b with
    | none => none
    | some capability =>
      match capability q with
      | .error _ => none
      | .ok q2 => applyEdges G q2 rest

/-! ## Claim C3: the validator reports exactly the first broken edge -/

theorem findNoneIdx_some (G : Lang → Lang → Option T) :
    ∀ (E : List (Lang × Lang)) (n i : Nat) (p : Lang × Lang),
      findNoneIdx n (E.map fun q => (G q.1 q.2, q)) = some (i, p) →
      n ≤ i ∧ E.get? (i - n) = some p ∧ G p.1 p.2 = none ∧
        ∀ j q, j < i - n → E.get? j = some q → (G q.1 q.2).isSome := by
  intro E
  induction E with
  | nil => intro n i p h; simp [findNoneIdx] at h
  | cons e rest ih =>
    intro n i p h
    rw [List.map_cons] at h
    cases hG : G e.1 e.2 with
    | none =>
      rw [hG, findNoneIdx] at h
      simp at h
      obtain ⟨rfl, rfl⟩ := h
      refine ⟨le_refl _, ?_, hG, ?_⟩
      · simp
      · intro j q hj _
        omega
    | some tr =>
      rw [hG, findNoneIdx] at h
      obtain ⟨hn, hget, hnone, hfirst⟩ := ih (n + 1) i p h
      refine ⟨by omega, ?_, hnone, ?_⟩
      · have : i - n = (i - (n + 1)) + 1 := by omega
        rw [this]
        simpa using hget
      · intro j q hj hq
        match j with
        | 0 =>
          simp at hq
          rw [← hq, hG]
          rfl
        | j' + 1 =>
          refine hfirst j' q (by omega) ?_
          simpa using hq

theorem findNoneIdx_none (G : Lang → Lang → Option T) :
    ∀ (E : List (Lang × Lang)) (n : Nat),
      findNoneIdx n (E.map fun q => (G q.1 q.2, q)) = none →
      ∀ p ∈ E, (G p.1 p.2).isSome := by
  intro E
  induction E with
  | nil => intro n _ p hp; simp at hp
  | cons e rest ih =>
    intro n h p hp
    rw [List.map_cons] at h
    cases hG : G e.1 e.2 with
    | none => rw [hG, findNoneIdx] at h; simp at h
    | some tr =>
      rw [hG, findNoneIdx] at h
      rcases List.mem_cons.mp hp with rfl | hp
      · rw [hG]; rfl
      · exact ih (n + 1) h p hp

/-- Claim C3: `identify_invalid_sequence` returns the pair at the smallest
index of `zip(sequence[:-1], sequence[1:])` whose consecutive pair has no
capability — every earlier pair resolves to one — and returns `none` exactly
when every consecutive pair resolves. -/
theorem identify_invalid_sequence_first (G : Lang → Lang → Option T)
    (seq : List Lang) :
    (∀ i p, identify_invalid_sequence G seq = some (i, p) →
        (seq.dropLast.zip seq.tail).get? i = some p ∧ G p.1 p.2 = none ∧
        ∀ j q, j < i → (seq.dropLast.zip seq.tail).get? j = some q →
          (G q.1 q.2).isSome) ∧
    (identify_invalid_sequence G seq = none →
        ∀ p ∈ seq.dropLast.zip seq.tail, (G p.1 p.2).isSome) := by
  constructor
  · intro i p h
    obtain ⟨-, hget, hnone, hfirst⟩ :=
      findNoneIdx_some G (seq.dropLast.zip seq.tail) 0 i p h
    refine ⟨by simpa using hget, hnone, ?_⟩
    intro j q hj hq
    exact hfirst j q (by omega) hq
  · intro h
    exact findNoneIdx_none G (seq.dropLast.zip seq.tail) 0 h

/-- Capability graph used by concrete witnesses: a successful edge from `a` to
`a + 1`, each edge appending its target to the query, and no other edges. -/
def chainGraph : Nat → Nat → Option (Nat → Except Unit Nat) :=
  fun a b => if b = a + 1 then some (fun q => .ok (q * 10 + b)) else none

/-- Concrete instantiation of `identify_invalid_sequence_first`: on the
sequence `[0, 1, 5]` over `chainGraph` the validator reports index 1 with pair
`(1, 5)`, whose capability is absent, and the single earlier pair resolves. -/
theorem identify_invalid_sequence_first_witness :
    ([0, 1, 5].dropLast.zip ([0, 1, 5] : List Nat).tail).get? 1 =
        some ((1 : Nat), (5 : Nat)) ∧
      chainGraph 1 5 = none ∧
      ∀ j q, j < 1 →
        ([0, 1, 5].dropLast.zip ([0, 1, 5] : List Nat).tail).get? j = some q →
        (chainGraph q.1 q.2).isSome :=
  (identify_invalid_sequence_first chainGraph [0, 1, 5]).1 1 (1, 5) rfl

/-! ## Claim C6: behaviour of `translate_sequenced` -/

theorem translateSeqGo_invalid (G : Lang → Lang → Option (Q → Except Err Q)) :
    ∀ (E : List (Lang × Lang)) (q : Q) (i : Nat) (a b : Lang) (qi : Q),
      E.get? i = some (a, b) → applyEdges G q (E.take i) = some qi →
      G a b = none →
      translateSeqGo q (E.map fun p => (G p.1 p.2, p)) =
        .error (.invalidTranslation a b qi) := by
  intro E
  induction E with
  | nil => intro q i a b qi hget _ _; simp at hget
  | cons e rest ih =>
    intro q i a b qi hget happ hG
    match i with
    | 0 =>
      simp at hget
      obtain rfl : e = (a, b) := hget
      simp [applyEdges] at happ
      subst happ
      rw [List.map_cons]
      rw [show G (a, b).1 (a, b).2 = none from hG]
      rw [translateSeqGo]
    | i' + 1 =>
      rw [List.get?_cons_succ] at hget
      rw [List.take_succ_cons, applyEdges] at happ
      cases hGe : G e.1 e.2 with
      | none => exact Option.noConfusion (by simpa only [hGe] using happ)
      | some capability =>
        simp only [hGe] at happ
        cases hcap : capability q with
        | error er => exact Option.noConfusion (by simpa only [hcap] using happ)
        | ok q2 =>
          simp only [hcap] at happ
          rw [List.map_cons, hGe, translateSeqGo, hcap]
          exact ih q2 i' a b qi hget happ hG

theorem translateSeqGo_failed (G : Lang → Lang → Option (Q → Except Err Q)) :
    ∀ (E : List (Lang × Lang)) (q : Q) (i : Nat) (a b : Lang) (qi : Q)
      (capability : Q → Except Err Q) (e : Err),
      E.get? i = some (a, b) → applyEdges G q (E.take i) = some qi →
      G a b = some capability → capability qi = .error e →
      translateSeqGo q (E.map fun p => (G p.1 p.2, p)) =
        .error (.translationFailed a b qi e) := by
  intro E
  induction E with
  | nil => intro q i a b qi cap er hget _ _ _; simp at hget
  | cons hd rest ih =>
    intro q i a b qi cap er hget happ hG hcap
    match i with
    | 0 =>
      simp at hget
      obtain rfl : hd = (a, b) := hget
      simp [applyEdges] at happ
      subst happ
      rw [List.map_cons]
      rw [show G (a, b).1 (a, b).2 = some cap from hG]
      rw [translateSeqGo, hcap]
    | i' + 1 =>
      rw [List.get?_cons_succ] at hget
      rw [List.take_succ_cons, applyEdges] at happ
      cases hGe : G hd.1 hd.2 with
      | none => exact Option.noConfusion (by simpa only [hGe] using happ)
      | some capability2 =>
        simp only [hGe] at happ
        cases hcap2 : capability2 q with
        | error er2 => exact Option.noConfusion (by simpa only [hcap2] using happ)
        | ok q2 =>
          simp only [hcap2] at happ
          rw [List.map_cons, hGe, translateSeqGo, hcap2]
          exact ih q2 i' a b qi cap er hget happ hG hcap

theorem translateSeqGo_ok (G : Lang → Lang → Option (Q → Except Err Q)) :
    ∀ (E : List (Lang × Lang)) (q r : Q),
      applyEdges G q E = some r →
      translateSeqGo q (E.map fun p => (G p.1 p.2, p)) = .ok r := by
  intro E
  induction E with
  | nil =>
    intro q r happ
    simp [applyEdges] at happ
    subst happ
    rfl
  | cons hd rest ih =>
    intro q r happ
    rw [applyEdges] at happ
    cases hGe : G hd.1 hd.2 with
    | none => exact Option.noConfusion (by simpa only [hGe] using happ)
    | some capability =>
      simp only [hGe] at happ
      cases hcap : capability q with
      | error er => exact Option.noConfusion (by simpa only [hcap] using happ)
      | ok q2 =>
        simp only [hcap] at happ
        rw [List.map_cons, hGe, translateSeqGo, hcap]
        exact ih q2 r happ

/-- Claim C6: `translate_sequenced` walks `zip(sequence[:-1], sequence[1:])`
edge-by-edge over the running query.  If the text `qi` reaches an edge whose
capability is absent, it raises `InvalidTranslationError` carrying that edge
and `qi`; if the capability's invocation on `qi` fails with `e`, it raises
`TranslationFailedError` carrying that edge, `qi` and the cause `e`; and if
chaining every edge's translation over the query succeeds with `r`, it
returns `r`. -/
theorem translate_sequenced_spec (G : Lang → Lang → Option (Q → Except Err Q))
    (query : Q) (seq : List Lang) :
    (∀ i a b qi, (seq.dropLast.zip seq.tail).get? i = some (a, b) →
        applyEdges G query ((seq.dropLast.zip seq.tail).take i) = some qi →
        G a b = none →
        translate_sequenced G query seq = .error (.invalidTranslation a b qi)) ∧
    (∀ i a b qi capability e,
        (seq.dropLast.zip seq.tail).get? i = some (a, b) →
        applyEdges G query ((seq.dropLast.zip seq.tail).take i) = some qi →
        G a b = some capability → capability qi = .error e →
        translate_sequenced G query seq =
          .error (.translationFailed a b qi e)) ∧
    (∀ r, applyEdges G query (seq.dropLast.zip seq.tail) = some r →
        translate_sequenced G query seq = .ok r) := by
  refine ⟨?_, ?_, ?_⟩
  · intro i a b qi hget happ hG
    exact translateSeqGo_invalid G _ query i a b qi hget happ hG
  · intro i a b qi capability e hget happ hG hcap
    exact translateSeqGo_failed G _ query i a b qi capability e hget happ hG hcap
  · intro r happ
    exact translateSeqGo_ok G _ query r happ

/-- Concrete instantiation of `translate_sequenced_spec`: over `chainGraph`
the sequence `[0, 1, 2]` chains successfully on query 7 (giving 712), and on
the sequence `[0, 1, 5]` the walk stops at the capability-free edge `(1, 5)`
carrying the text 71 produced by the first edge. -/
theorem translate_sequenced_spec_witness :
    translate_sequenced chainGraph 7 [0, 1, 2] = .ok 712 ∧
    translate_sequenced chainGraph 7 [0, 1, 5] =
      .error (.invalidTranslation 1 5 71) := by
  constructor
  · exact (translate_sequenced_spec chainGraph 7 [0, 1, 2]).2.2 712 rfl
  · exact (translate_sequenced_spec chainGraph 7 [0, 1, 5]).1 1 1 5 71 rfl rfl rfl

/-! ## Sequence planner (modelled from the spec)

The body of `get_random_sequence` in src/ext_api/translate.py raises
`NotImplementedError`, and its callers (src/console.py,
src/autotranslate_dir.py) pass `disabled_languages` and
`allow_self_translation` arguments the src signature lacks: the implementation
is code of the repository missing from src.  The definitions below model
spec section 4.2.  Random choice is modelled by an arbitrary `pick` oracle
giving the index chosen from the current candidate list, so theorems quantify
over every possible sequence of random draws. -/

/-- Modelled from the spec: the candidate enumeration of the Sequence Planner
at a node — outbound edges, minus those landing on a disabled node, minus
(when self-loops are disallowed) the edge back to the current node. -/
def planCandidates [DecidableEq Lang] (edgesFrom : Lang → List Lang)
    (disabled : List Lang) (allowSelfLoop : Bool) (current : Lang) :
    List Lang :=
  (edgesFrom current).filter fun c =>
    decide (c ∉ disabled ∧ (allowSelfLoop = true ∨ c ≠ current))

/-- Modelled from the spec: the strike-and-retry loop of the planner.  The
oracle picks a candidate; if the recursive walk `next` from it fails with a
dead branch, the candidate is struck from the choice set and another is
picked; with no candidates left the dead branch propagates (`none`).  `fuel`
is initialised to the candidate count, which each retry strictly shrinks, as
the spec's termination argument states. -/
def tryCands (next : Lang → Option (List Lang)) (pick : List Lang → Nat) :
    Nat → List Lang → Option (List Lang)
  | _, [] => none
  | 0, _ :: _ => none
  | fuel + 1, c0 :: cs =>
    let cands := c0 :: cs
    let i := pick cands % cands.length
    match next (cands.get ⟨i, Nat.mod_lt _ (Nat.succ_pos _)⟩) with
    | some path => some path
    | none => tryCands next pick fuel (cands.eraseIdx i)

/-- Modelled from the spec: one strike-and-retry pass over a full candidate
list. -/
def tryCandidates (next : Lang → Option (List Lang)) (pick : List Lang → Nat)
    (cands : List Lang) : Option (List Lang) :=
  tryCands next pick cands.length cands

/-- Modelled from the spec: the recursive random walk of the Sequence
Planner.  With step budget 0 success requires the end node to be directly
reachable from the current node, giving the final edge; otherwise a candidate
is picked (with backtracking) and the walk recurses with one step less, the
current node prepended to the returned suffix. -/
def randomWalk [DecidableEq Lang] (edgesFrom : Lang → List Lang)
    (pick : List Lang → Nat) (endLang : Lang) (disabled : List Lang)
    (allowSelfLoop : Bool) : Nat → Lang → Option (List Lang)
  | 0, current =>
    if endLang ∈ edgesFrom current then some [current, endLang] else none
  | steps + 1, current =>
    match
      tryCandidates
        (fun c =>
          randomWalk edgesFrom pick endLang disabled allowSelfLoop steps c)
        pick (planCandidates edgesFrom disabled allowSelfLoop current) with
    | some suffix => some (current :: suffix)
    | none => none

/-- Modelled from the spec: `plan(start, end, steps, disabledNodes,
allowSelfLoop)`, the operation of `get_random_sequence`.  A sequence of
`steps` edges is a walk of `steps - 1` intermediate picks followed by the
final edge to the end node; `none` is the Dead-Branch search failure. -/
def get_random_sequence [DecidableEq Lang] (edgesFrom : Lang → List Lang)
    (pick : List Lang → Nat) (start endLang : Lang) (steps : Nat)
    (disabled : List Lang) (allowSelfLoop : Bool) : Option (List Lang) :=
  randomWalk edgesFrom pick endLang disabled allowSelfLoop (steps - 1) start

/-! ## Claim C4: shape and validity of every planned sequence -/

theorem mem_of_mem_eraseIdx_own {α : Type u} :
    ∀ (l : List α) (i : Nat) (a : α), a ∈ l.eraseIdx i → a ∈ l := by
  intro l
  induction l with
  | nil => intro i a h; simp [List.eraseIdx] at h
  | cons x xs ih =>
    intro i a h
    match i with
    | 0 => exact List.mem_cons_of_mem x h
    | i' + 1 =>
      rcases List.mem_cons.mp h with rfl | h
      · exact List.mem_cons_self a xs
      · exact List.mem_cons_of_mem x (ih i' a h)

theorem tryCands_some (next : Lang → Option (List Lang))
    (pick : List Lang → Nat) :
    ∀ (fuel : Nat) (cands path : List Lang),
      tryCands next pick fuel cands = some path →
      ∃ c ∈ cands, next c = some path := by
  intro fuel
  induction fuel with
  | zero =>
    intro cands path h
    match cands with
    | [] => simp [tryCands] at h
    | c0 :: cs => simp [tryCands] at h
  | succ fuel ih =>
    intro cands path h
    match cands with
    | [] => simp [tryCands] at h
    | c0 :: cs =>
      rw [tryCands] at h
      cases hnext :
          next ((c0 :: cs).get
            ⟨pick (c0 :: cs) % (c0 :: cs).length,
              Nat.mod_lt _ (Nat.succ_pos _)⟩) with
      | some path2 =>
        simp only [hnext] at h
        obtain rfl : path2 = path := Option.some.inj h
        exact ⟨_, List.get_mem _ _ _, hnext⟩
      | none =>
        simp only [hnext] at h
        obtain ⟨c, hc, hcnext⟩ := ih _ path h
        exact ⟨c, mem_of_mem_eraseIdx_own _ _ c hc, hcnext⟩

theorem tryCandidates_some (next : Lang → Option (List Lang))
    (pick : List Lang → Nat) (cands path : List Lang)
    (h : tryCandidates next pick cands = some path) :
    ∃ c ∈ cands, next c = some path :=
  tryCands_some next pick cands.length cands path h

theorem randomWalk_spec [DecidableEq Lang] (edgesFrom : Lang → List Lang)
    (pick : List Lang → Nat) (endLang : Lang) (disabled : List Lang)
    (allowSelfLoop : Bool) :
    ∀ (steps : Nat) (current : Lang) (seq : List Lang),
      randomWalk edgesFrom pick endLang disabled allowSelfLoop steps current =
        some seq →
      seq.length = steps + 2 ∧ seq.head? = some current ∧
      seq.getLast? = some endLang ∧
      ∀ p ∈ seq.dropLast.zip seq.tail,
        p.2 ∈ edgesFrom p.1 ∧ (p.2 = endLang ∨ p.2 ∉ disabled) := by
  intro steps
  induction steps with
  | zero =>
    intro current seq h
    rw [randomWalk] at h
    by_cases hmem : endLang ∈ edgesFrom current
    · rw [if_pos hmem] at h
      obtain rfl : [current, endLang] = seq := by simpa using h
      refine ⟨rfl, rfl, rfl, ?_⟩
      intro p hp
      simp at hp
      subst hp
      exact ⟨hmem, Or.inl rfl⟩
    · rw [if_neg hmem] at h
      simp at h
  | succ steps ih =>
    intro current seq h
    rw [randomWalk] at h
    cases htry :
        tryCandidates
          (fun c =>
            randomWalk edgesFrom pick endLang disabled allowSelfLoop steps c)
          pick (planCandidates edgesFrom disabled allowSelfLoop current) with
    | none => rw [htry] at h; simp at h
    | some suffix =>
      rw [htry] at h
      obtain rfl : current :: suffix = seq := by simpa using h
      obtain ⟨c, hc, hwalk⟩ := tryCandidates_some _ pick _ suffix htry
      obtain ⟨hlen, hhead, hlast, hedges⟩ := ih c suffix hwalk
      obtain ⟨c', rest, rfl⟩ : ∃ c' rest, suffix = c' :: rest := by
        cases suffix with
        | nil => simp at hhead
        | cons c' rest => exact ⟨c', rest, rfl⟩
      obtain rfl : c' = c := by simpa using hhead
      have hcand := List.mem_filter.mp hc
      have hcand2 := of_decide_eq_true hcand.2
      refine ⟨by simpa using hlen, rfl, ?_, ?_⟩
      · rw [List.getLast?_cons_cons]
        exact hlast
      · intro p hp
        have hzip :
            (current :: c' :: rest).dropLast.zip (current :: c' :: rest).tail =
              (current, c') :: ((c' :: rest).dropLast.zip (c' :: rest).tail) := by
          cases rest with
          | nil => rfl
          | cons r rs => rfl
        rw [hzip] at hp
        rcases List.mem_cons.mp hp with rfl | hp
        · exact ⟨hcand.1, Or.inr hcand2.1⟩
        · exact hedges p hp

/-- Claim C4: every successful `plan(start, end, steps, …)` call (with
`steps ≥ 1`, as a sequence has at least two nodes) returns a sequence of
exactly `steps + 1` nodes that begins with `start`, ends with `end`, and whose
every consecutive pair is an edge of the capability graph landing on no
disabled node except possibly the designated end. -/
theorem get_random_sequence_path [DecidableEq Lang]
    (edgesFrom : Lang → List Lang) (pick : List Lang → Nat)
    (start endLang : Lang) (steps : Nat) (disabled : List Lang)
    (allowSelfLoop : Bool) (seq : List Lang) :
    1 ≤ steps →
    get_random_sequence edgesFrom pick start endLang steps disabled
      allowSelfLoop = some seq →
    seq.length = steps + 1 ∧ seq.head? = some start ∧
    seq.getLast? = some endLang ∧
    ∀ p ∈ seq.dropLast.zip seq.tail,
      p.2 ∈ edgesFrom p.1 ∧ (p.2 = endLang ∨ p.2 ∉ disabled) := by
  intro hsteps h
  obtain ⟨hlen, hhead, hlast, hedges⟩ :=
    randomWalk_spec edgesFrom pick endLang disabled allowSelfLoop
      (steps - 1) start seq h
  refine ⟨by omega, hhead, hlast, hedges⟩

/-- Line graph used by the planner witnesses: edges 0 → 1 and 1 → 2 only. -/
def lineEdges : Nat → List Nat :=
  fun a => if a = 0 then [1] else if a = 1 then [2] else []

/-- Oracle that always picks the first remaining candidate. -/
def pickFirst : List Nat → Nat := fun _ => 0

/-- Concrete instantiation of `get_random_sequence_path`: on the line graph,
planning from 0 to 2 in 2 steps yields `[0, 1, 2]`, which has the claimed
shape and edge validity. -/
theorem get_random_sequence_path_witness :
    ([0, 1, 2] : List Nat).length = 2 + 1 ∧
    ([0, 1, 2] : List Nat).head? = some 0 ∧
    ([0, 1, 2] : List Nat).getLast? = some 2 ∧
    ∀ p ∈ ([0, 1, 2] : List Nat).dropLast.zip ([0, 1, 2] : List Nat).tail,
      p.2 ∈ lineEdges p.1 ∧ (p.2 = 2 ∨ p.2 ∉ ([] : List Nat)) :=
  get_random_sequence_path lineEdges pickFirst 0 2 2 [] false [0, 1, 2]
    (by decide) (by decide)

/-! ## Claim C5: dead-end graph makes planning fail, not hang -/

/-- Dead-end graph of the spec's scenario: the only edge is A → B (with
A = 0, B = 1, C = 2), and B has no outbound edges. -/
def deadEndEdges : Nat → List Nat :=
  fun a => if a = 0 then [1] else []

/-- Claim C5: on the dead-end graph, `plan(A, C, 2, …)` fails with the
Dead-Branch search failure (`none`) for every sequence of random draws and
every self-loop setting; the planner is a total function, so the search
terminates. -/
theorem get_random_sequence_dead_end (pick : List Nat → Nat)
    (allowSelfLoop : Bool) :
    get_random_sequence deadEndEdges pick 0 2 2 [] allowSelfLoop = none := by
  cases allowSelfLoop <;>
    simp [get_random_sequence, randomWalk, tryCandidates, tryCands,
      planCandidates, deadEndEdges, Nat.mod_one]

/-! ## Parallel orchestrator (src/ext_api/parallel.py)

The worker pool is modelled sequentially: `futures` is the submission-ordered
list of task outcomes, and the collection loop walks it in that order exactly
as the source iterates its `futures` list, so completion timing cannot affect
the result.  `pool_size` only bounds concurrency in the source and is carried
as an inert parameter; the progress callback performs no computation relevant
to the returned values and is not modelled. -/

/-- Modelled from the spec: `ProgressCounter` is imported by
src/ext_api/parallel.py and src/console.py from `ext_api.helpers` but is
absent from src/ext_api/helpers.py.  Per the spec it is shared mutable state
with a completed count and a total; the source constructs it with the total
(`end`) and reads the completed count (`state`). -/
structure ProgressCounter where
  completed : Int
  total : Int
deriving DecidableEq

/-- The Progress Counter created at the start of
`parallel_sequenced_translate`, before any task runs:
`ProgressCounter(end=len(queries)*(len(sequence)-1), callback=callback)`
with no step completed yet. -/
def parallelProgress (queries : List Q) (sequence : List Lang) :
    ProgressCounter :=
  { completed := 0,
    total := (queries.length : Int) * ((sequence.length : Int) - 1) }

/-- Modelled from the spec: `_translate_sequence_part` is imported by
src/ext_api/parallel.py from `ext_api.translate` but is absent from
src/ext_api/translate.py.  Per the spec, a task at each edge resolves the
capability: if absent it fails with the invalid-edge outcome carrying
`(from, to, current text)`; if present it invokes it, wrapping any execution
error as the translation-failed outcome with the underlying cause. -/
def translate_sequence_part (query : Q) (tr : Option (Q → Except Err Q))
    (langs : Lang × Lang) : Except (TranslationError Lang Q Err) Q :=
  match tr with
  | none => .error (.invalidTranslation langs.1 langs.2 query)
  | some capability =>
    match capability query with
    | .error e => .error (.translationFailed langs.1 langs.2 query e)
    | .ok query2 => .ok query2

/-- Worker for `parallel_translate_task`, modelling the `for translation,
langs in iterate_translate_sequence(sequence)` loop of
`_parallel_translate_task` (the per-edge `progress.increment()` is a side
effect on the shared counter and does not enter the returned value). -/
def parallelTaskGo : Q → List (Option (Q → Except Err Q) × (Lang × Lang)) →
    Except (TranslationError Lang Q Err) Q
  | query, [] => .ok query
  | query, (tr, langs) :: rest =>
    match translate_sequence_part query tr langs with
    | .error e => .error e
    | .ok query2 => parallelTaskGo query2 rest

/-- Model of `_parallel_translate_task(query, sequence, progress)` from
src/ext_api/parallel.py: one worker task chaining the query through the
sequence, its failure captured by the future. -/
def parallel_translate_task (G : Lang → Lang → Option (Q → Except Err Q))
    (query : Q) (sequence : List Lang) :
    Except (TranslationError Lang Q Err) Q :=
  parallelTaskGo query (iterate_translate_sequence G sequence)

/-- Model of the collection loop of `parallel_sequenced_translate`: walking
the futures in submission order, appending each success to `results` and each
failure as `none` to `results` and its exception to `exceptions`. -/
def collectResults {E : Type w} {A : Type v} :
    List (Except E A) → List (Option A) × List E
  | [] => ([], [])
  | f :: rest =>
    let rs := collectResults rest
    match f with
    | .ok r => (some r :: rs.1, rs.2)
    | .error e => (none :: rs.1, e :: rs.2)

/-- Model of the `PartiallyFailedTranslation` exception group of
src/ext_api/parallel.py: the per-task exceptions plus the order-preserving
`results` list with `none` at failed indices. -/
structure PartiallyFailedTranslation (E : Type w) (A : Type v) where
  exceptions : List E
  results : List (Option A)

/-- Model of `parallel_sequenced_translate(queries, sequence, pool_size=...,
callback=...)` from src/ext_api/parallel.py: creates the progress counter,
submits one task per query (submission order = query order), collects results
and exceptions in that order, raises `PartiallyFailedTranslation` if any task
failed and otherwise returns the in-order outputs.  `poolSize` only bounds
concurrency in the source and does not enter the computation. -/
def parallel_sequenced_translate (G : Lang → Lang → Option (Q → Except Err Q))
    (queries : List Q) (sequence : List Lang) (poolSize : Option Nat) :
    Except (PartiallyFailedTranslation (TranslationError Lang Q Err) Q)
      (List Q) :=
  let _ := poolSize
  let _ := parallelProgress queries sequence
  let futures := queries.map fun q => parallel_translate_task G q sequence
  let rs := collectResults futures
  if 0 < rs.2.length then
    .error { exceptions := rs.2, results := rs.1 }
  else
    .ok (futures.filterMap Except.toOption)

/-- Model of `translate_sequence_segmented` from src/ext_api/parallel.py:
split the query, translate the parts in parallel, and join the ordered
results. -/
def translate_sequence_segmented
    (G : List Char → List Char → Option (List Char → Except Err (List Char)))
    (query : List Char) (sequence : List (List Char))
    (maxSegmentSize : Nat) (poolSize : Option Nat) :
    Option (Except
      (PartiallyFailedTranslation
        (TranslationError (List Char) (List Char) Err) (List Char))
      (List Char)) :=
  match split_into_parts query maxSegmentSize with
  | none => none
  | some queries =>
    match parallel_sequenced_translate G queries sequence poolSize with
    | .error pf => some (.error pf)
    | .ok results => some (.ok results.flatten)

/-! ## Claims C7 and C8: failure aggregation and result ordering -/

theorem collectResults_fst {E : Type w} {A : Type v} :
    ∀ fs : List (Except E A), (collectResults fs).1 = fs.map Except.toOption := by
  intro fs
  induction fs with
  | nil => rfl
  | cons f rest ih =>
    cases f with
    | ok r => simp [collectResults, Except.toOption, ih]
    | error e => simp [collectResults, Except.toOption, ih]

theorem collectResults_snd_length {E : Type w} {A : Type v} :
    ∀ fs : List (Except E A),
      (collectResults fs).2.length =
        (fs.filter fun f => f.toOption.isNone).length := by
  intro fs
  induction fs with
  | nil => rfl
  | cons f rest ih =>
    cases f with
    | ok r => simpa [collectResults, Except.toOption] using ih
    | error e => simpa [collectResults, Except.toOption] using ih

theorem toOption_ok {E : Type w} {A : Type v} (r : A) :
    (Except.ok r : Except E A).toOption = some r := rfl

theorem toOption_error {E : Type w} {A : Type v} (e : E) :
    (Except.error e : Except E A).toOption = none := rfl

theorem noFail_get {E : Type w} {A : Type v} :
    ∀ fs : List (Except E A),
      (fs.filter fun f => f.toOption.isNone).length = 0 →
      ∀ (i : Nat) (f : Except E A), fs.get? i = some f →
        ∃ r, f = .ok r ∧ (fs.filterMap Except.toOption).get? i = some r := by
  intro fs
  induction fs with
  | nil => intro _ i f hget; simp at hget
  | cons f0 rest ih =>
    intro hlen i f hget
    cases f0 with
    | error e =>
      have hcons : (Except.error e :: rest).filter
          (fun f => f.toOption.isNone) =
          Except.error e :: rest.filter (fun f => f.toOption.isNone) := rfl
      rw [hcons] at hlen
      simp at hlen
    | ok r0 =>
      have hcons : (Except.ok r0 :: rest).filter
          (fun f => f.toOption.isNone) =
          rest.filter (fun f => f.toOption.isNone) := rfl
      rw [hcons] at hlen
      match i with
      | 0 =>
        have hf : Except.ok r0 = f := by simpa using hget
        subst hf
        exact ⟨r0, rfl, rfl⟩
      | i' + 1 =>
        rw [List.get?_cons_succ] at hget
        obtain ⟨r, hr, hget'⟩ := ih hlen i' f hget
        exact ⟨r, hr, hget'⟩

theorem noFail_length {E : Type w} {A : Type v} :
    ∀ fs : List (Except E A),
      (fs.filter fun f => f.toOption.isNone).length = 0 →
      (fs.filterMap Except.toOption).length = fs.length := by
  intro fs
  induction fs with
  | nil => intro _; rfl
  | cons f0 rest ih =>
    intro hlen
    cases f0 with
    | error e =>
      have hcons : (Except.error e :: rest).filter
          (fun f => f.toOption.isNone) =
          Except.error e :: rest.filter (fun f => f.toOption.isNone) := rfl
      rw [hcons] at hlen
      simp at hlen
    | ok r0 =>
      have hcons : (Except.ok r0 :: rest).filter
          (fun f => f.toOption.isNone) =
          rest.filter (fun f => f.toOption.isNone) := rfl
      rw [hcons] at hlen
      have hfm : (Except.ok r0 :: rest).filterMap Except.toOption =
          r0 :: rest.filterMap Except.toOption := rfl
      rw [hfm, List.length_cons, List.length_cons, ih hlen]

theorem someCount_add_noneCount {E : Type w} {A : Type v} :
    ∀ fs : List (Except E A),
      ((fs.map Except.toOption).filter fun r => r.isSome).length +
        (fs.filter fun f => f.toOption.isNone).length = fs.length := by
  intro fs
  induction fs with
  | nil => rfl
  | cons f0 rest ih =>
    cases f0 with
    | ok r0 =>
      have h1 : ((Except.ok r0 :: rest).map Except.toOption).filter
          (fun r => r.isSome) =
          some r0 :: (rest.map Except.toOption).filter (fun r => r.isSome) :=
        rfl
      have h2 : (Except.ok r0 :: rest).filter (fun f => f.toOption.isNone) =
          rest.filter (fun f => f.toOption.isNone) := rfl
      rw [h1, h2, List.length_cons, List.length_cons]
      omega
    | error e =>
      have h1 : ((Except.error e :: rest).map Except.toOption).filter
          (fun r => r.isSome) =
          (rest.map Except.toOption).filter (fun r => r.isSome) := rfl
      have h2 : (Except.error e :: rest).filter (fun f => f.toOption.isNone) =
          Except.error e :: rest.filter (fun f => f.toOption.isNone) := rfl
      rw [h1, h2, List.length_cons, List.length_cons]
      omega

/-- Claim C7: with `k` the number of failing tasks among the `n` queries, a
failing run raises a `PartiallyFailedTranslation` carrying exactly `k`
underlying causes together with an `n`-entry result list holding, at each
index, the corresponding task's output and `none` exactly at the `k` failed
indices (so `n - k` populated entries); with `k = 0` the call returns the
plain `n`-entry output list with no absence markers. -/
theorem parallel_sequenced_translate_partial_failure
    (G : Lang → Lang → Option (Q → Except Err Q)) (queries : List Q)
    (sequence : List Lang) (poolSize : Option Nat) :
    (((queries.map fun q => parallel_translate_task G q sequence).filter
        (fun f => f.toOption.isNone)).length = 0 →
      ∃ outs, parallel_sequenced_translate G queries sequence poolSize =
          .ok outs ∧ outs.length = queries.length) ∧
    (0 < ((queries.map fun q => parallel_translate_task G q sequence).filter
        (fun f => f.toOption.isNone)).length →
      ∃ pf, parallel_sequenced_translate G queries sequence poolSize =
          .error pf ∧
        pf.exceptions.length =
          ((queries.map fun q => parallel_translate_task G q sequence).filter
            (fun f => f.toOption.isNone)).length ∧
        pf.results.length = queries.length ∧
        (∀ i, pf.results.get? i =
          ((queries.map fun q => parallel_translate_task G q sequence).get?
            i).map Except.toOption) ∧
        (pf.results.filter fun r => r.isSome).length =
          queries.length -
            ((queries.map fun q => parallel_translate_task G q sequence).filter
              (fun f => f.toOption.isNone)).length) := by
  constructor
  · intro hk
    have hz : (collectResults
        (queries.map fun q => parallel_translate_task G q sequence)).2.length =
        0 := by
      rw [collectResults_snd_length]; omega
    have hif : parallel_sequenced_translate G queries sequence poolSize =
        .ok ((queries.map fun q =>
          parallel_translate_task G q sequence).filterMap Except.toOption) := by
      simp only [parallel_sequenced_translate]
      rw [if_neg (by omega)]
    refine ⟨_, hif, ?_⟩
    rw [noFail_length _ hk, List.length_map]
  · intro hk
    have hpos : 0 < (collectResults
        (queries.map fun q => parallel_translate_task G q sequence)).2.length := by
      rw [collectResults_snd_length]; omega
    have hif : parallel_sequenced_translate G queries sequence poolSize =
        .error
          { exceptions := (collectResults (queries.map fun q =>
              parallel_translate_task G q sequence)).2,
            results := (collectResults (queries.map fun q =>
              parallel_translate_task G q sequence)).1 } := by
      simp only [parallel_sequenced_translate]
      rw [if_pos hpos]
    have h1 : (collectResults (queries.map fun q =>
        parallel_translate_task G q sequence)).2.length =
        ((queries.map fun q => parallel_translate_task G q sequence).filter
          (fun f => f.toOption.isNone)).length :=
      collectResults_snd_length _
    have h2 : (collectResults (queries.map fun q =>
        parallel_translate_task G q sequence)).1.length = queries.length := by
      rw [collectResults_fst, List.length_map, List.length_map]
    have h3 : ∀ i, (collectResults (queries.map fun q =>
        parallel_translate_task G q sequence)).1.get? i =
        ((queries.map fun q => parallel_translate_task G q sequence).get?
          i).map Except.toOption := by
      intro i
      rw [collectResults_fst, List.get?_map]
    have h4 : ((collectResults (queries.map fun q =>
        parallel_translate_task G q sequence)).1.filter
          fun r => r.isSome).length =
        queries.length -
          ((queries.map fun q => parallel_translate_task G q sequence).filter
            (fun f => f.toOption.isNone)).length := by
      rw [collectResults_fst]
      have h :=
        someCount_add_noneCount
          (queries.map fun q => parallel_translate_task G q sequence)
      rw [List.length_map] at h
      omega
    exact ⟨_, hif, h1, h2, h3, h4⟩

/-- Capability graph with a per-text failure: edges from `a` to `a + 1` whose
invocation raises on the text 8, used to force exactly one task failure. -/
def failGraph : Nat → Nat → Option (Nat → Except Unit Nat) :=
  fun a b =>
    if b = a + 1 then
      some (fun q => if q = 8 then .error () else .ok (q * 10 + b))
    else none

/-- Concrete instantiation of `parallel_sequenced_translate_partial_failure`:
with no failing task the call returns both outputs in order, and with the
task on query 8 forced to fail the call raises the aggregate failure with one
cause and a two-entry result list populated exactly at index 0. -/
theorem parallel_sequenced_translate_partial_failure_witness :
    (∃ outs, parallel_sequenced_translate chainGraph [7, 8] [0, 1, 2] none =
        .ok outs ∧ outs.length = ([7, 8] : List Nat).length) ∧
    (∃ pf, parallel_sequenced_translate failGraph [7, 8] [0, 1, 2] none =
        .error pf ∧
      pf.exceptions.length =
        ((([7, 8] : List Nat).map fun q =>
          parallel_translate_task failGraph q [0, 1, 2]).filter
            (fun f => f.toOption.isNone)).length ∧
      pf.results.length = ([7, 8] : List Nat).length ∧
      (∀ i, pf.results.get? i =
        ((([7, 8] : List Nat).map fun q =>
          parallel_translate_task failGraph q [0, 1, 2]).get? i).map
            Except.toOption) ∧
      (pf.results.filter fun r => r.isSome).length =
        ([7, 8] : List Nat).length -
          ((([7, 8] : List Nat).map fun q =>
            parallel_translate_task failGraph q [0, 1, 2]).filter
              (fun f => f.toOption.isNone)).length) :=
  ⟨(parallel_sequenced_translate_partial_failure chainGraph [7, 8] [0, 1, 2]
      none).1 (by decide),
   (parallel_sequenced_translate_partial_failure failGraph [7, 8] [0, 1, 2]
      none).2 (by decide)⟩

/-- Claim C8: a successful run of the orchestrator returns a list
index-aligned with the submission order of the queries — entry `i` is the
output of the task on query `i` — and the returned value is the same for
every pool size: the collection loop walks the futures in submission order,
so completion timing cannot reorder it. -/
theorem parallel_sequenced_translate_ordered
    (G : Lang → Lang → Option (Q → Except Err Q)) (queries : List Q)
    (sequence : List Lang) (ps1 ps2 : Option Nat) (outs : List Q) :
    parallel_sequenced_translate G queries sequence ps1 = .ok outs →
    parallel_sequenced_translate G queries sequence ps2 = .ok outs ∧
    outs.length = queries.length ∧
    ∀ i q, queries.get? i = some q →
      ∃ r, outs.get? i = some r ∧
        parallel_translate_task G q sequence = .ok r := by
  intro h
  by_cases hpos : 0 < (collectResults
      (queries.map fun q => parallel_translate_task G q sequence)).2.length
  · exfalso
    simp only [parallel_sequenced_translate] at h
    rw [if_pos hpos] at h
    exact Except.noConfusion h
  · have h0 : ((queries.map fun q =>
        parallel_translate_task G q sequence).filter
          (fun f => f.toOption.isNone)).length = 0 := by
      rw [← collectResults_snd_length]
      omega
    have houts : outs = (queries.map fun q =>
        parallel_translate_task G q sequence).filterMap Except.toOption := by
      simp only [parallel_sequenced_translate] at h
      rw [if_neg hpos] at h
      exact (Except.ok.inj h).symm
    refine ⟨h, ?_, ?_⟩
    · rw [houts, noFail_length _ h0, List.length_map]
    · intro i q hq
      have hfs : (queries.map fun q =>
          parallel_translate_task G q sequence).get? i =
          some (parallel_translate_task G q sequence) := by
        rw [List.get?_map, hq]
        rfl
      obtain ⟨r, hr, hget⟩ := noFail_get _ h0 i _ hfs
      exact ⟨r, houts ▸ hget, hr⟩

/-- Concrete instantiation of `parallel_sequenced_translate_ordered`: the
successful run on queries `[7, 8]` through `[0, 1, 2]` over `chainGraph` is
pool-size independent and aligned with the query order. -/
theorem parallel_sequenced_translate_ordered_witness :
    parallel_sequenced_translate chainGraph [7, 8] [0, 1, 2] (some 1) =
        .ok [712, 812] ∧
    ([712, 812] : List Nat).length = ([7, 8] : List Nat).length ∧
    ∀ i q, ([7, 8] : List Nat).get? i = some q →
      ∃ r, ([712, 812] : List Nat).get? i = some r ∧
        parallel_translate_task chainGraph q [0, 1, 2] = .ok r :=
  parallel_sequenced_translate_ordered chainGraph [7, 8] [0, 1, 2]
    none (some 1) [712, 812] rfl

/-! ## Claim C9: the Progress Counter's total -/

/-- Claim C9: the Progress Counter created by `parallel_sequenced_translate`
before any task runs has no step completed and total
`len(queries) * (len(sequence) - 1)`, which for a nonempty sequence equals
the number of chunks times the number of edges walked per task. -/
theorem parallelProgress_total (G : Lang → Lang → Option T)
    (queries : List Q) (sequence : List Lang) :
    (parallelProgress queries sequence).completed = 0 ∧
    (parallelProgress queries sequence).total =
      (queries.length : Int) * ((sequence.length : Int) - 1) ∧
    (1 ≤ sequence.length →
      (parallelProgress queries sequence).total =
        (queries.length : Int) *
          ((iterate_translate_sequence G sequence).length : Int)) := by
  refine ⟨rfl, rfl, ?_⟩
  intro hlen
  have hedges : (iterate_translate_sequence G sequence).length =
      sequence.length - 1 := by
    simp [iterate_translate_sequence]
  rw [hedges]
  show (queries.length : Int) * ((sequence.length : Int) - 1) =
    (queries.length : Int) * ((sequence.length - 1 : Nat) : Int)
  have hc : ((sequence.length : Int) - 1) = ((sequence.length - 1 : Nat) : Int) := by
    omega
  rw [hc]

/-- Concrete instantiation of `parallelProgress_total`: one query through the
two-language sequence `[0, 1]` gives a counter created with one total step,
the single edge of the sequence. -/
theorem parallelProgress_total_witness :
    (parallelProgress [7] ([0, 1] : List Nat)).total =
      (([7] : List Nat).length : Int) *
        ((iterate_translate_sequence chainGraph [0, 1]).length : Int) :=
  (parallelProgress_total chainGraph [7] [0, 1]).2.2 (by decide)

/-! ## Language helpers (src/ext_api/helpers.py)

argostranslate `Language` objects are opaque records with a `code`; the
installed-language registry returned by `get_installed_languages()` is a
parameter `langs`.  The Python union `Language | str` is `Language ⊕ String`. -/

/-- A language node: an identifier compared by code. -/
structure LanguageNode where
  code : String
deriving DecidableEq

/-- Model of `get_lang_from_code(code)` from src/ext_api/helpers.py: the first
installed language whose code matches, `none` for the `ValueError` raised when
no installed language matches. -/
def get_lang_from_code (langs : List LanguageNode) (code : String) :
    Option LanguageNode :=
  langs.find? fun l => decide (l.code = code)

/-- Model of `ensure_language(lang_or_code)` from src/ext_api/helpers.py: a
code is looked up among the installed languages (`none` for the
`ValueError`), a `Language` is passed through. -/
def ensure_language (langs : List LanguageNode) :
    LanguageNode ⊕ String → Option LanguageNode
  | .inl lang => some lang
  | .inr code => get_lang_from_code langs code

/-- Model of `ensure_code(lang_or_code)` from src/ext_api/helpers.py: the code
of a `Language`, a code passed through as-is. -/
def ensure_code : LanguageNode ⊕ String → String
  | .inl lang => lang.code
  | .inr code => code

/-! ## Claim C10: the `ensure_code` / `ensure_language` round-trips -/

/-- Counterexample to claim C10 as stated: with no installed languages,
`ensure_language(ensure_code(l))` for the `Language` with code `"en"` returns
no language at all (the source raises `ValueError`), rather than a `Language`
with the same code as `l`: the second round-trip only holds for languages
whose code is installed. -/
theorem ensure_language_roundtrip_cex :
    ensure_language []
      (Sum.inr (ensure_code (Sum.inl (⟨"en"⟩ : LanguageNode)))) = none := rfl

theorem get_lang_from_code_spec :
    ∀ (langs : List LanguageNode) (code : String),
      (∃ l ∈ langs, l.code = code) →
      ∃ l', get_lang_from_code langs code = some l' ∧ l'.code = code := by
  intro langs
  induction langs with
  | nil => intro code h; simp at h
  | cons l0 rest ih =>
    intro code h
    by_cases h0 : l0.code = code
    · refine ⟨l0, ?_, h0⟩
      simp [get_lang_from_code, List.find?, h0]
    · obtain ⟨l, hl, hcode⟩ := h
      rcases List.mem_cons.mp hl with rfl | hl
      · exact absurd hcode h0
      · obtain ⟨l', hfind, hcode'⟩ := ih code ⟨l, hl, hcode⟩
        refine ⟨l', ?_, hcode'⟩
        simpa [get_lang_from_code, List.find?, h0] using hfind

/-- Claim C10 (amended): for every installed language code `c`,
`ensure_code(ensure_language(c)) = c`; and for every `Language` `l` whose
code is that of some installed language, `ensure_language(ensure_code(l))`
is a `Language` with the same code as `l` (for a code with no installed
language both compositions instead raise `ValueError`, see the
counterexample). -/
theorem ensure_code_ensure_language_roundtrip (langs : List LanguageNode) :
    (∀ code : String, (∃ l ∈ langs, l.code = code) →
      ∃ l', ensure_language langs (Sum.inr code) = some l' ∧
        ensure_code (Sum.inl l') = code) ∧
    (∀ l : LanguageNode, (∃ l0 ∈ langs, l0.code = l.code) →
      ∃ l', ensure_language langs (Sum.inr (ensure_code (Sum.inl l))) =
          some l' ∧ l'.code = l.code) := by
  constructor
  · intro code h
    obtain ⟨l', hfind, hcode⟩ := get_lang_from_code_spec langs code h
    exact ⟨l', hfind, hcode⟩
  · intro l h
    obtain ⟨l', hfind, hcode⟩ := get_lang_from_code_spec langs l.code h
    exact ⟨l', hfind, hcode⟩

/-- Concrete instantiation of `ensure_code_ensure_language_roundtrip` with the
single installed language of code `"en"`. -/
theorem ensure_code_ensure_language_roundtrip_witness :
    (∃ l', ensure_language [⟨"en"⟩] (Sum.inr ("en")) = some l' ∧
        ensure_code (Sum.inl l') = "en") ∧
    (∃ l', ensure_language [⟨"en"⟩]
        (Sum.inr (ensure_code (Sum.inl (⟨"en"⟩ : LanguageNode)))) = some l' ∧
      l'.code = (⟨"en"⟩ : LanguageNode).code) :=
  ⟨(ensure_code_ensure_language_roundtrip [⟨"en"⟩]).1 "en"
      ⟨⟨"en"⟩, by simp, rfl⟩,
   (ensure_code_ensure_language_roundtrip [⟨"en"⟩]).2 ⟨"en"⟩
      ⟨⟨"en"⟩, by simp, rfl⟩⟩
